import Mathlib

/-!
Verification of the DSPBB multirate resampling core
(`src/include/dspbb/Filtering/Interpolation.hpp`).

Scalars are embedded as `ℚ`: the repository's `Rational<int64_t>`
(`Math/Rational.hpp`, not in the sources at hand) is, per the spec (§4.1),
exact reduced-fraction arithmetic with unchecked overflow, which `ℚ` models
directly (`Rat.num`/`Rat.den` are the canonical reduced numerator and
positive denominator).  Signal samples are likewise embedded as `ℚ`, the
exact model of the templated sample type.  Signals are `List ℚ`; an access
outside a buffer contributes `0`, matching the boundary-truncation /
zero-padding semantics of the code.
-/

namespace DSPBB

/-- Read a signal at an integer position; out-of-range positions give `0`
(the implicit zero-padding convention used throughout the resampler). -/
def getZ (xs : List ℚ) (i : ℤ) : ℚ :=
  if 0 ≤ i then xs.getD i.toNat 0 else 0

/-- Modelled from the spec: `DotProduct` (`Math/DotProduct.hpp` is not among
the sources) — the sum of pairwise products of two equal-length windows,
here addressed by window start positions into the two buffers. -/
def dotZ (x y : List ℚ) (xFirst yFirst : ℤ) (count : ℕ) : ℚ :=
  ∑ j ∈ Finset.range count, getZ x (xFirst + j) * getZ y (yFirst + j)

theorem getZ_neg {xs : List ℚ} {i : ℤ} (h : i < 0) : getZ xs i = 0 := by
  simp [getZ, not_le.mpr h]

theorem getZ_ge_length {xs : List ℚ} {i : ℤ} (h : (xs.length : ℤ) ≤ i) :
    getZ xs i = 0 := by
  unfold getZ
  split
  · exact List.getD_eq_default _ _ (by omega)
  · rfl

theorem getZ_natCast (xs : List ℚ) (i : ℕ) : getZ xs (i : ℤ) = xs.getD i 0 := by
  simp [getZ]

theorem getZ_nil (i : ℤ) : getZ [] i = 0 := by
  unfold getZ
  split <;> simp

theorem getZ_drop (xs : List ℚ) (W : ℕ) {i : ℤ} (h : 0 ≤ i) :
    getZ (xs.drop W) i = getZ xs (W + i) := by
  have h2 : (0 : ℤ) ≤ (W : ℤ) + i := by omega
  rw [getZ, getZ, if_pos h, if_pos h2]
  have : ((W : ℤ) + i).toNat = W + i.toNat := by omega
  rw [this]
  rw [List.getD_eq_getElem?_getD, List.getD_eq_getElem?_getD, List.getElem?_drop]

/-- Source: `Decimate` (Interpolation.hpp, lines 22–31).  Walks the output
buffer, copying every `rate`-th input sample (`readIdx` advances by `rate`
per output element); the output buffer has the asserted size
`(input.Size() + rate - 1) / rate`. -/
def Decimate (x : List ℚ) (rate : ℕ) : List ℚ :=
  ((List.range ((x.length + rate - 1) / rate)).foldl
    (fun acc _ => (acc.1 ++ [x.getD acc.2 0], acc.2 + rate)) (([] : List ℚ), 0)).1

/-- Source: `Expand` (Interpolation.hpp, lines 50–63).  For each input
sample, writes the sample followed by `rate - 1` zeros. -/
def Expand : List ℚ → ℕ → List ℚ
  | [], _ => []
  | a :: t, rate => a :: (List.replicate (rate - 1) 0 ++ Expand t rate)

theorem decimate_foldl (x : List ℚ) (rate : ℕ) (n : ℕ) :
    (List.range n).foldl
      (fun acc _ => (acc.1 ++ [x.getD acc.2 0], acc.2 + rate)) (([] : List ℚ), 0)
      = ((List.range n).map (fun j => x.getD (j * rate) 0), n * rate) := by
  induction n with
  | zero => simp
  | succ n ih =>
      rw [List.range_succ, List.foldl_append, ih, List.map_append]
      simp [Nat.succ_mul]

theorem decimate_eq_map (x : List ℚ) (rate : ℕ) :
    Decimate x rate
      = (List.range ((x.length + rate - 1) / rate)).map (fun j => x.getD (j * rate) 0) := by
  rw [Decimate, decimate_foldl]

theorem map_range_getD {f : ℕ → ℚ} {n j : ℕ} (h : j < n) :
    ((List.range n).map f).getD j 0 = f j := by
  rw [List.getD_eq_getElem?_getD, List.getElem?_map]
  simp [List.getElem?_range h]

theorem length_expand (x : List ℚ) (rate : ℕ) (hr : 1 ≤ rate) :
    (Expand x rate).length = x.length * rate := by
  induction x with
  | nil => simp [Expand]
  | cons a t ih =>
      simp only [Expand, List.length_cons, List.length_append, List.length_replicate, ih]
      rw [Nat.succ_mul]
      omega

theorem getD_append_left (l l' : List ℚ) (i : ℕ) (h : i < l.length) :
    (l ++ l').getD i 0 = l.getD i 0 := by
  rw [List.getD_eq_getElem?_getD, List.getD_eq_getElem?_getD,
    List.getElem?_append_left h]

theorem getD_append_right (l l' : List ℚ) (i : ℕ) :
    (l ++ l').getD (l.length + i) 0 = l'.getD i 0 := by
  rw [List.getD_eq_getElem?_getD, List.getD_eq_getElem?_getD,
    List.getElem?_append_right (by omega)]
  simp

theorem getD_replicate_zero (n i : ℕ) : (List.replicate n (0 : ℚ)).getD i 0 = 0 := by
  induction n generalizing i with
  | zero => simp
  | succ n ih => cases i <;> simp [List.replicate_succ, ih]

theorem expand_getD (x : List ℚ) (rate : ℕ) (hr : 1 ≤ rate) (i rem : ℕ)
    (hrem : rem < rate) :
    (Expand x rate).getD (i * rate + rem) 0 = if rem = 0 then x.getD i 0 else 0 := by
  induction x generalizing i with
  | nil =>
      simp only [Expand, List.getD_nil]
      split <;> simp
  | cons a t ih =>
      cases i with
      | zero =>
          simp only [Nat.zero_mul, Nat.zero_add, Expand]
          cases rem with
          | zero => simp
          | succ r =>
              simp only [List.getD_cons_succ]
              have hlt : r < (List.replicate (rate - 1) (0 : ℚ)).length := by
                rw [List.length_replicate]
                omega
              rw [getD_append_left _ _ _ hlt, getD_replicate_zero]
              simp
      | succ i =>
          have hidx : (i + 1) * rate + rem = ((rate - 1) + (i * rate + rem)) + 1 := by
            rw [Nat.add_mul]
            omega
          rw [hidx]
          simp only [Expand, List.getD_cons_succ]
          have h2 : (rate - 1) + (i * rate + rem)
              = (List.replicate (rate - 1) (0 : ℚ)).length + (i * rate + rem) := by
            rw [List.length_replicate]
          rw [h2, getD_append_right]
          exact ih i

/-- Modelled from the spec: the number of taps of phase `p` of the polyphase
decomposition of a length-`F` filter into `P` phases — the taps at original
indices `p, p + P, p + 2·P, …` below `F` (§3: "every Pth tap starting at an
offset derived from i"; §4.2: ragged phase lengths when `P ∤ F`). -/
def phaseLen (F P p : ℕ) : ℕ := (F - p + P - 1) / P

/-- Modelled from the spec: `PolyphaseView::PhaseSize()` = ⌈F / P⌉, the
maximum taps per phase (§3). -/
def phaseSize (F P : ℕ) : ℕ := (F + P - 1) / P

/-- Modelled from the spec: phase `p` of the polyphase view over filter `h`
with `P` phases (`Polyphase.hpp` is not among the sources).  Per §3 the
phase holds every `P`-th tap of the original filter starting at offset `p`,
stored reversed (commutator order) so that a plain dot product against an
input window realizes the filtered-then-decimated sample. -/
def phaseList (h : List ℚ) (P p : ℕ) : List ℚ :=
  (List.range (phaseLen h.length P p)).map
    fun j => h.getD ((phaseLen h.length P p - 1 - j) * P + p) 0

theorem length_phaseList (h : List ℚ) (P p : ℕ) :
    (phaseList h P p).length = phaseLen h.length P p := by
  simp [phaseList]

theorem phaseLen_le_phaseSize (F P p : ℕ) : phaseLen F P p ≤ phaseSize F P := by
  apply Nat.div_le_div_right
  omega

theorem lt_phaseLen_iff (F P p m : ℕ) (hP : 1 ≤ P) :
    m < phaseLen F P p ↔ m * P + p < F := by
  unfold phaseLen
  rw [Nat.lt_iff_add_one_le, Nat.le_div_iff_mul_le (by omega), Nat.add_mul, Nat.one_mul]
  omega

/-- Modelled from the spec: `ConvolutionLength(n, f, CONV_FULL) = n + f - 1`,
the length of the full convolution of buffers of sizes `n` and `f`
(§4.4 "maximum valid length for a full convolution"). -/
def ConvolutionLength (n f : ℤ) : ℤ := n + f - 1

/-- Spec-side reference definition: the full convolution of signal `u` with
filter `h`, evaluated at index `n`; out-of-range samples contribute zero.
This is the "filtered zero-stuffed high-rate signal" of §4.4 when `u` is the
expanded input. -/
def convFullAt (u h : List ℚ) (n : ℤ) : ℚ :=
  ∑ j ∈ Finset.range h.length, getZ u (n - j) * getZ h j

/-- Modelled from the spec: the half-open index interval used by
`Interpolate` to clip the convolution window (`Interval` comes from a header
not among the sources; §4.4 "clip the theoretical convolution window"). -/
structure Interval where
  first : ℤ
  last : ℤ

/-- Modelled from the spec: intersection of half-open intervals. -/
def Intersection (a b : Interval) : Interval :=
  ⟨max a.first b.first, min a.last b.last⟩

/-- Source: the body of `Interpolate`'s output loop (Interpolation.hpp,
lines 103–124) for the absolute high-rate output index `n = hrOutputIdx`:
computes the clipped-window dot product, or `none` when the clipped window
is empty (in which case the source leaves the output element untouched). -/
def interpolateElem (x h : List ℚ) (P : ℕ) (n : ℕ) : Option ℚ :=
  let hrFilterSize : ℤ := h.length
  let lrPhaseSize : ℤ := phaseSize h.length P
  let hrInputIdx : ℤ := 1 - hrFilterSize + n
  let lrInputIdx : ℤ := (hrInputIdx + hrFilterSize - 1) / P - lrPhaseSize + 1
  let polyphaseIdx : ℤ := (hrInputIdx + hrFilterSize - 1) % P
  let phase := phaseList h P polyphaseIdx.toNat
  let inputSpan : Interval := ⟨0, (x.length : ℤ)⟩
  let lrInputInterval : Interval := ⟨lrInputIdx, lrInputIdx + lrPhaseSize⟩
  let lrPhaseInterval : Interval := ⟨lrInputInterval.last - phase.length, lrInputInterval.last⟩
  let lrInputProductInterval := Intersection inputSpan (Intersection lrInputInterval lrPhaseInterval)
  let lrPhaseProductFirst := lrInputProductInterval.first - lrInputIdx
  if 0 < lrInputProductInterval.last - lrInputProductInterval.first then
    some (dotZ x phase lrInputProductInterval.first
      (lrPhaseProductFirst - lrPhaseSize + phase.length)
      (lrInputProductInterval.last - lrInputProductInterval.first).toNat)
  else none

/-- Source: `Interpolate` (Interpolation.hpp, lines 89–125), the in-place
overload: iterates the output indices `hrOffset …` and overwrites exactly
those output elements whose clipped window is non-empty. -/
def InterpolateInto (out x h : List ℚ) (P : ℕ) (hrOffset : ℕ) : List ℚ :=
  (List.range out.length).foldl
    (fun acc k =>
      match interpolateElem x h P (hrOffset + k) with
      | some v => acc.set k v
      | none => acc) out

/-- Source: `Interpolate` (Interpolation.hpp, lines 127–138), the allocating
overload: output of length `hrLength` initialized to zero. -/
def Interpolate (x h : List ℚ) (P : ℕ) (hrOffset hrLength : ℕ) : List ℚ :=
  InterpolateInto (List.replicate hrLength 0) x h P hrOffset

theorem getD_set_self (l : List ℚ) (n : ℕ) (v : ℚ) (h : n < l.length) :
    (l.set n v).getD n 0 = v := by
  rw [List.getD_eq_getElem?_getD, List.getElem?_set_self' ]
  simp [List.getElem?_eq_getElem h]

theorem getD_set_ne (l : List ℚ) (n m : ℕ) (v : ℚ) (h : n ≠ m) :
    (l.set n v).getD m 0 = l.getD m 0 := by
  rw [List.getD_eq_getElem?_getD, List.getD_eq_getElem?_getD, List.getElem?_set_ne h]

theorem interpolateInto_aux (x h : List ℚ) (P off : ℕ) (out : List ℚ) (n : ℕ)
    (hn : n ≤ out.length) :
    let res := (List.range n).foldl
      (fun acc k =>
        match interpolateElem x h P (off + k) with
        | some v => acc.set k v
        | none => acc) out
    res.length = out.length ∧
      ∀ k, res.getD k 0 =
        if k < n then (interpolateElem x h P (off + k)).getD (out.getD k 0)
        else out.getD k 0 := by
  induction n with
  | zero => simp
  | succ n ih =>
      intro res
      obtain ⟨ihl, ihe⟩ := ih (by omega)
      have hres : res = match interpolateElem x h P (off + n) with
          | some v => ((List.range n).foldl
              (fun acc k =>
                match interpolateElem x h P (off + k) with
                | some v => acc.set k v
                | none => acc) out).set n v
          | none => (List.range n).foldl
              (fun acc k =>
                match interpolateElem x h P (off + k) with
                | some v => acc.set k v
                | none => acc) out := by
        show (List.range (n + 1)).foldl _ out = _
        rw [List.range_succ, List.foldl_append, List.foldl_cons, List.foldl_nil]
      rcases he : interpolateElem x h P (off + n) with _ | v
      · rw [hres, he]
        refine ⟨ihl, fun k => ?_⟩
        rw [ihe k]
        rcases Nat.lt_trichotomy k n with hk | hk | hk
        · have hk1 : k < n + 1 := by omega
          simp [hk, hk1]
        · subst hk
          simp [he]
        · have h1 : ¬ k < n := by omega
          have h2 : ¬ k < n + 1 := by omega
          simp [h1, h2]
      · rw [hres, he]
        constructor
        · rw [List.length_set, ihl]
        · intro k
          rcases Nat.lt_trichotomy k n with hk | hk | hk
          · rw [getD_set_ne _ _ _ _ (by omega), ihe k]
            have hk1 : k < n + 1 := by omega
            simp [hk, hk1]
          · subst hk
            rw [getD_set_self _ _ _ (by omega), he]
            simp
          · have h1 : ¬ k < n := by omega
            have h2 : ¬ k < n + 1 := by omega
            rw [getD_set_ne _ _ _ _ (by omega), ihe k]
            simp [h1, h2]

theorem length_interpolateInto (out x h : List ℚ) (P off : ℕ) :
    (InterpolateInto out x h P off).length = out.length :=
  (interpolateInto_aux x h P off out out.length le_rfl).1

theorem interpolateInto_getD (out x h : List ℚ) (P off k : ℕ) :
    (InterpolateInto out x h P off).getD k 0 =
      if k < out.length then (interpolateElem x h P (off + k)).getD (out.getD k 0)
      else out.getD k 0 :=
  (interpolateInto_aux x h P off out out.length le_rfl).2 k

/-- The per-phase reading of one output sample of the interpolated signal:
the dot product of the input against phase `p`, anchored at input index `q`,
written as a sum over the phase's taps.  (`phaseConv x h P p q` is
`convolution(zero-stuffed x, h)` at high-rate index `q·P + p`.) -/
def phaseConv (x h : List ℚ) (P p q : ℕ) : ℚ :=
  ∑ m ∈ Finset.range (phaseLen h.length P p),
    getZ x ((q : ℤ) - m) * getZ h ((m : ℤ) * P + p)

theorem getZ_phaseList (h : List ℚ) (P p : ℕ) (j : ℕ) (hj : j < phaseLen h.length P p) :
    getZ (phaseList h P p) (j : ℤ)
      = getZ h (((phaseLen h.length P p - 1 - j) * P + p : ℕ) : ℤ) := by
  rw [getZ_natCast, getZ_natCast, phaseList, map_range_getD hj]

/-- The clipped-window computation of `interpolateElem`, in normal form:
window `[max 0 (q+1-L), min N (q+1))` over the input, phase `p`, with the
phase-side offset aligned to the window. -/
def windowValue (x h : List ℚ) (P p q : ℕ) : Option ℚ :=
  if 0 < min (x.length : ℤ) ((q : ℤ) + 1) - max 0 ((q : ℤ) + 1 - phaseLen h.length P p) then
    some (dotZ x (phaseList h P p) (max 0 ((q : ℤ) + 1 - phaseLen h.length P p))
      (max 0 ((q : ℤ) + 1 - phaseLen h.length P p) - ((q : ℤ) + 1 - phaseLen h.length P p))
      (min (x.length : ℤ) ((q : ℤ) + 1) - max 0 ((q : ℤ) + 1 - phaseLen h.length P p)).toNat)
  else none

theorem interpolateElem_eq_windowValue (x h : List ℚ) (P : ℕ) (hP : 1 ≤ P) (n : ℕ) :
    interpolateElem x h P n = windowValue x h P (n % P) (n / P) := by
  have hLS : phaseLen h.length P (n % P) ≤ phaseSize h.length P :=
    phaseLen_le_phaseSize h.length P (n % P)
  simp only [interpolateElem, windowValue, Intersection, length_phaseList]
  rw [show (1 : ℤ) - (h.length : ℤ) + (n : ℤ) + (h.length : ℤ) - 1 = (n : ℤ) by ring]
  rw [← Int.natCast_div, ← Int.natCast_mod, Int.toNat_natCast]
  refine if_congr ?_ ?_ rfl
  · constructor <;> intro <;> omega
  · have e1 : ∀ (a b : ℤ) (c : ℕ) (a' b' : ℤ) (c' : ℕ), a = a' → b = b' → c = c' →
        some (dotZ x (phaseList h P (n % P)) a b c)
          = some (dotZ x (phaseList h P (n % P)) a' b' c') := by
      intro a b c a' b' c' h1 h2 h3
      rw [h1, h2, h3]
    apply e1 <;> omega

theorem windowValue_getD (x h : List ℚ) (P p q : ℕ) :
    (windowValue x h P p q).getD 0 = phaseConv x h P p q := by
  unfold windowValue phaseConv
  set L : ℕ := phaseLen h.length P p with hLdef
  set first : ℤ := max 0 ((q : ℤ) + 1 - L) with hfirstdef
  set last : ℤ := min (x.length : ℤ) ((q : ℤ) + 1) with hlastdef
  by_cases hlt : 0 < last - first
  · rw [if_pos hlt, Option.getD_some]
    set cnt : ℕ := (last - first).toNat with hcntdef
    set s : ℕ := ((q : ℤ) + 1 - last).toNat with hsdef
    have hsub : Finset.Ico s (s + cnt) ⊆ Finset.range L := by
      intro m hm
      rw [Finset.mem_Ico] at hm
      rw [Finset.mem_range]
      omega
    have hzero : ∀ m ∈ Finset.range L, m ∉ Finset.Ico s (s + cnt) →
        getZ x ((q : ℤ) - m) * getZ h ((m : ℤ) * P + p) = 0 := by
      intro m hm hnot
      rw [Finset.mem_range] at hm
      rw [Finset.mem_Ico, not_and_or, not_le, not_lt] at hnot
      have hx0 : getZ x ((q : ℤ) - m) = 0 := by
        rcases lt_or_le ((q : ℤ) - m) 0 with hneg | hpos
        · exact getZ_neg hneg
        · exact getZ_ge_length (by omega)
      rw [hx0, zero_mul]
    symm
    calc ∑ m ∈ Finset.range L, getZ x ((q : ℤ) - m) * getZ h ((m : ℤ) * P + p)
        = ∑ m ∈ Finset.Ico s (s + cnt), getZ x ((q : ℤ) - m) * getZ h ((m : ℤ) * P + p) :=
          (Finset.sum_subset hsub hzero).symm
      _ = ∑ c ∈ Finset.range (s + cnt - s),
            getZ x ((q : ℤ) - (s + c)) * getZ h (((s + c : ℕ) : ℤ) * P + p) := by
          rw [Finset.sum_Ico_eq_sum_range]
          apply Finset.sum_congr rfl
          intro c _
          push_cast
          ring_nf
      _ = ∑ c ∈ Finset.range cnt,
            getZ x ((q : ℤ) - (s + c)) * getZ h (((s + c : ℕ) : ℤ) * P + p) := by
          rw [Nat.add_sub_cancel_left]
      _ = ∑ c ∈ Finset.range cnt,
            getZ x ((q : ℤ) - ((s : ℤ) + ((cnt - 1 - c : ℕ) : ℤ)))
              * getZ h (((s + (cnt - 1 - c) : ℕ) : ℤ) * P + p) :=
          (Finset.sum_range_reflect
            (fun c => getZ x ((q : ℤ) - ((s : ℤ) + (c : ℤ)))
              * getZ h (((s + c : ℕ) : ℤ) * P + p)) cnt).symm
      _ = ∑ c ∈ Finset.range cnt,
            getZ x (first + c) * getZ (phaseList h P p) (first - ((q : ℤ) + 1 - L) + c) := by
          apply Finset.sum_congr rfl
          intro c hc
          rw [Finset.mem_range] at hc
          have hj0 : 0 ≤ first - ((q : ℤ) + 1 - L) + c := by omega
          have hjL : first - ((q : ℤ) + 1 - L) + c < L := by omega
          have hjn : first - ((q : ℤ) + 1 - L) + c
              = (((first - ((q : ℤ) + 1 - L) + c).toNat : ℕ) : ℤ) := by omega
          rw [hjn, getZ_phaseList h P p _ (by omega), ← hLdef]
          have hm : s + (cnt - 1 - c) = L - 1 - (first - ((q : ℤ) + 1 - L) + c).toNat := by
            omega
          rw [hm]
          have hxarg : (q : ℤ) - ((s : ℤ) + ((cnt - 1 - c : ℕ) : ℤ)) = first + c := by omega
          rw [hxarg]
          have hc2 : (s : ℤ) + ((cnt - 1 - c : ℕ) : ℤ)
              = ((L - 1 - (first - ((q : ℤ) + 1 - L) + c).toNat : ℕ) : ℤ) := by omega
          push_cast
          ring_nf
      _ = dotZ x (phaseList h P p) first (first - ((q : ℤ) + 1 - L)) cnt := by
          unfold dotZ
          apply Finset.sum_congr rfl
          intro c _
          ring_nf
  · rw [if_neg hlt, Option.getD_none]
    symm
    apply Finset.sum_eq_zero
    intro m hm
    rw [Finset.mem_range] at hm
    have hx0 : getZ x ((q : ℤ) - m) = 0 := by
      rcases lt_or_le ((q : ℤ) - m) 0 with hneg | hpos
      · exact getZ_neg hneg
      · exact getZ_ge_length (by omega)
    rw [hx0, zero_mul]

theorem getZ_expand_not_dvd (x : List ℚ) (P : ℕ) (hP : 1 ≤ P) {z : ℤ}
    (hz : ¬ ((P : ℤ) ∣ z)) : getZ (Expand x P) z = 0 := by
  rcases lt_or_le z 0 with hneg | hpos
  · exact getZ_neg hneg
  · have hrem : z.toNat % P ≠ 0 := by
      intro hmod
      apply hz
      have : (P : ℤ) ∣ (z.toNat : ℤ) := by
        exact_mod_cast Int.natCast_dvd_natCast.mpr (Nat.dvd_of_mod_eq_zero hmod)
      rwa [Int.toNat_of_nonneg hpos] at this
    have hztn : z = ((z.toNat / P * P + z.toNat % P : ℕ) : ℤ) := by
      have hz2 : z.toNat / P * P + z.toNat % P = z.toNat := Nat.div_add_mod' _ _
      omega
    rw [hztn, getZ_natCast, expand_getD x P hP _ _ (Nat.mod_lt _ (by omega)), if_neg hrem]

theorem getZ_expand_mul (x : List ℚ) (P : ℕ) (hP : 1 ≤ P) (i : ℤ) :
    getZ (Expand x P) (i * P) = getZ x i := by
  rcases lt_or_le i 0 with hneg | hpos
  · have hP0 : (0 : ℤ) < P := by exact_mod_cast Nat.lt_of_lt_of_le Nat.zero_lt_one hP
    rw [getZ_neg hneg, getZ_neg (mul_neg_of_neg_of_pos hneg hP0)]
  · have h1 : i * P = ((i.toNat * P + 0 : ℕ) : ℤ) := by
      push_cast [Int.toNat_of_nonneg hpos]
      ring
    rw [h1, getZ_natCast, expand_getD x P hP _ _ (by omega), if_pos rfl]
    rw [show i = ((i.toNat : ℕ) : ℤ) by omega, getZ_natCast]
    congr 1 <;> omega

theorem conv_eq_phaseConv (x h : List ℚ) (P : ℕ) (hP : 1 ≤ P) (n : ℕ) :
    convFullAt (Expand x P) h (n : ℤ) = phaseConv x h P (n % P) (n / P) := by
  unfold convFullAt phaseConv
  have hstep1 : ∑ j ∈ Finset.range h.length, getZ (Expand x P) ((n : ℤ) - j) * getZ h j
      = ∑ j ∈ (Finset.range h.length).filter (fun j => j % P = n % P),
          getZ (Expand x P) ((n : ℤ) - j) * getZ h j := by
    symm
    apply Finset.sum_filter_of_ne
    intro j hj hne
    by_contra hjmod
    apply hne
    have hnd : ¬ ((P : ℤ) ∣ ((n : ℤ) - j)) := by
      intro hdvd
      apply hjmod
      have hmodeq : (j : ℤ) % P = (n : ℤ) % P := Int.modEq_iff_dvd.mpr hdvd
      rw [← Int.natCast_mod, ← Int.natCast_mod] at hmodeq
      exact_mod_cast hmodeq
    rw [getZ_expand_not_dvd x P hP hnd, zero_mul]
  have himg : (Finset.range h.length).filter (fun j => j % P = n % P)
      = (Finset.range (phaseLen h.length P (n % P))).image (fun m => m * P + n % P) := by
    ext j
    rw [Finset.mem_filter, Finset.mem_image, Finset.mem_range]
    constructor
    · rintro ⟨hjF, hjmod⟩
      refine ⟨j / P, ?_, ?_⟩
      · rw [Finset.mem_range, lt_phaseLen_iff _ _ _ _ hP]
        have hdm := Nat.div_add_mod' j P
        omega
      · have hdm := Nat.div_add_mod' j P
        omega
    · rintro ⟨m, hm, rfl⟩
      rw [Finset.mem_range, lt_phaseLen_iff _ _ _ _ hP] at hm
      constructor
      · exact hm
      · have hlt : n % P < P := Nat.mod_lt _ (by omega)
        simp [Nat.mul_add_mod' m P (n % P), Nat.mod_eq_of_lt hlt]
  rw [hstep1, himg, Finset.sum_image (by intro a _ b _ hab; nlinarith)]
  apply Finset.sum_congr rfl
  intro m hm
  rw [Finset.mem_range] at hm
  have hd : (P : ℤ) * ((n / P : ℕ) : ℤ) + ((n % P : ℕ) : ℤ) = (n : ℤ) := by
    exact_mod_cast congrArg (Nat.cast : ℕ → ℤ) (Nat.div_add_mod n P)
  have hc : ((m * P + n % P : ℕ) : ℤ) = (m : ℤ) * P + ((n % P : ℕ) : ℤ) := by
    push_cast
    ring
  have harg : (n : ℤ) - ((m * P + n % P : ℕ) : ℤ) = (((n / P : ℕ) : ℤ) - m) * P := by
    rw [hc]
    linear_combination -hd
  rw [harg, getZ_expand_mul x P hP, hc]

namespace resample

/-- Source: `resample::ChangeSampleRate` (Interpolation.hpp, lines 184–188):
`sample * Rational{targetRate, sourceRate}`. -/
def ChangeSampleRate (sourceRate targetRate : ℤ) (sample : ℚ) : ℚ :=
  sample * ((targetRate : ℚ) / (sourceRate : ℚ))

/-- Source: `resample::PhaseSample` (Interpolation.hpp, lines 190–194).
`inputIndex` is `size_t` in the source; it is an `ℤ` here so that the
definition is total (in all verified uses it is non-negative). -/
structure PhaseSample where
  inputIndex : ℤ
  phaseIndex : ℕ
  weight : ℕ

/-- Source: `resample::InputIndex2Sample` (Interpolation.hpp, lines 196–213).
`frac`/`floor`/`Numerator`/`Denominator` of the repository's `Rational` are
`Int.fract`/`Int.floor`/`Rat.num`/`Rat.den` of `ℚ` (the spec's §4.1 exact
reduced-fraction arithmetic; `Rational.hpp` is not among the sources). -/
def InputIndex2Sample (inputIndex : ℚ) (numPhases : ℕ) : PhaseSample × PhaseSample :=
  let indexFrac := Int.fract inputIndex
  let firstPhase : ℕ := (⌊indexFrac * (numPhases : ℚ)⌋).toNat
  let secondPhase : ℕ := (firstPhase + 1) % numPhases
  let t := Int.fract (indexFrac * (numPhases : ℚ))
  let secondWeight : ℕ := t.num.toNat
  let firstWeight : ℕ := t.den - t.num.toNat
  let firstIndex : ℤ := ⌊inputIndex⌋
  let secondIndex : ℤ := if secondPhase = 0 then firstIndex + 1 else firstIndex
  (⟨firstIndex, firstPhase, firstWeight⟩, ⟨secondIndex, secondPhase, secondWeight⟩)

/-- Source: `resample::DotProductSample` (Interpolation.hpp, lines 215–228):
the boundary-truncated dot product of the input around reversed-anchor
`inputReverseFirst` against one polyphase filter. -/
def DotProductSample (input filter : List ℚ) (inputReverseFirst : ℤ) : ℚ :=
  let desiredFirst : ℤ := inputReverseFirst - filter.length + 1
  let desiredLast : ℤ := inputReverseFirst + 1
  let possibleFirst : ℤ := max 0 desiredFirst
  let possibleLast : ℤ := min (input.length : ℤ) desiredLast
  let count : ℤ := possibleLast - possibleFirst
  let offset : ℤ := possibleFirst - desiredFirst
  dotZ input filter possibleFirst offset count.toNat

/-- Source: `resample::ResamplingLength` (Interpolation.hpp, lines 155–166)
for `CONV_FULL`. -/
def ResamplingLength (inputSize filterSize numPhases : ℕ) (sampleRates : ℚ) : ℚ :=
  ((ConvolutionLength ((numPhases : ℤ) * inputSize) (filterSize : ℤ) : ℤ) : ℚ)
    / sampleRates / (numPhases : ℚ)

/-- Source: `resample::ContinuationParams` (Interpolation.hpp, lines 242–245). -/
structure ContinuationParams where
  firstInputSample : ℕ
  startPoint : ℚ

/-- Source: `resample::Continuation` (Interpolation.hpp, lines 247–264). -/
def Continuation (nextOutputSample : ℚ) (filterSize numPhases : ℕ) (sampleRates : ℚ) :
    ContinuationParams :=
  let nextInputSample :=
    ChangeSampleRate sampleRates.den sampleRates.num nextOutputSample
  let convolutionOffset : ℚ := ((filterSize : ℚ) - 1) / (numPhases : ℚ)
  let firstInputSample := nextInputSample - convolutionOffset
  if firstInputSample ≤ 0 then
    ⟨0, nextOutputSample⟩
  else
    let firstInputSampleWhole : ℕ := (⌊firstInputSample⌋).toNat
    let inputStartPoint := Int.fract firstInputSample + convolutionOffset
    let outputStartPoint :=
      ChangeSampleRate sampleRates.num sampleRates.den inputStartPoint
    ⟨firstInputSampleWhole, outputStartPoint⟩

end resample

/-- The output-index → input-position mapping used per sample by `Resample`
(Interpolation.hpp, line 292):
`ChangeSampleRate(sampleRates.Denominator(), sampleRates.Numerator(), outputIndex)`. -/
def inputIndexOf (sampleRates : ℚ) (outputIndex : ℚ) : ℚ :=
  resample.ChangeSampleRate sampleRates.den sampleRates.num outputIndex

/-- Source: the body of `Resample`'s output loop (Interpolation.hpp,
lines 291–299) for one output position `outputIndex`: select the two
polyphase candidates, evaluate both boundary-truncated dot products, and
blend them by their integer weights. -/
def resampleSample (x h : List ℚ) (P : ℕ) (sampleRates outputIndex : ℚ) : ℚ :=
  let inputIndex := inputIndexOf sampleRates outputIndex
  let s := resample.InputIndex2Sample inputIndex P
  let firstSampleVal := resample.DotProductSample x (phaseList h P s.1.phaseIndex) s.1.inputIndex
  let secondSampleVal := resample.DotProductSample x (phaseList h P s.2.phaseIndex) s.2.inputIndex
  (firstSampleVal * (s.1.weight : ℚ) + secondSampleVal * (s.2.weight : ℚ))
    / ((s.1.weight : ℚ) + (s.2.weight : ℚ))

/-- Source: `Resample`'s output loop (Interpolation.hpp, lines 290–299):
the `len` output samples at positions `startPoint, startPoint + 1, …`
(`outputIndex` starts at `startPoint` and is incremented by `1` per
iteration, so the `k`-th sample sits at `startPoint + k`). -/
def ResampleOut (x h : List ℚ) (P : ℕ) (sampleRates startPoint : ℚ) (len : ℕ) : List ℚ :=
  (List.range len).map fun k : ℕ => resampleSample x h P sampleRates (startPoint + (k : ℚ))

/-- Source: `Resample` (Interpolation.hpp, lines 278–302), with its
assertion-style precondition checks (lines 283–288) made explicit: `none`
when a check fails (the source's `assert` stops before any output element
is written), otherwise the filled output together with the continuation
token for `outputIndex = startPoint + output.Size()`. -/
def Resample (x h : List ℚ) (P : ℕ) (sampleRates startPoint : ℚ) (len : ℕ) :
    Option (List ℚ × resample.ContinuationParams) :=
  if 0 ≤ sampleRates ∧ 0 ≤ startPoint ∧ 0 < P ∧
      startPoint + (len : ℚ) < resample.ResamplingLength x.length h.length P sampleRates
  then
    some (ResampleOut x h P sampleRates startPoint len,
      resample.Continuation (startPoint + (len : ℚ)) h.length P sampleRates)
  else none

theorem inputIndexOf_eq_mul (sampleRates outputIndex : ℚ) :
    inputIndexOf sampleRates outputIndex = outputIndex * sampleRates := by
  unfold inputIndexOf resample.ChangeSampleRate
  push_cast
  rw [Rat.num_div_den]

theorem den_div_num (r : ℚ) : (r.den : ℚ) / (r.num : ℚ) = r⁻¹ := by
  have h1 : ((r.num : ℚ) / (r.den : ℚ))⁻¹ = (r.den : ℚ) / (r.num : ℚ) := inv_div _ _
  rw [Rat.num_div_den] at h1
  exact h1.symm

theorem changeSampleRate_num_den (r s : ℚ) :
    resample.ChangeSampleRate r.num r.den s = s / r := by
  unfold resample.ChangeSampleRate
  push_cast
  rw [den_div_num, div_eq_mul_inv]

theorem weights_sum (ii : ℚ) (P : ℕ) :
    (resample.InputIndex2Sample ii P).1.weight + (resample.InputIndex2Sample ii P).2.weight
      = (Int.fract (Int.fract ii * (P : ℚ))).den := by
  have h0 : (0 : ℚ) ≤ Int.fract (Int.fract ii * (P : ℚ)) := Int.fract_nonneg _
  have h1 : Int.fract (Int.fract ii * (P : ℚ)) < 1 := Int.fract_lt_one _
  have hnum : 0 ≤ (Int.fract (Int.fract ii * (P : ℚ))).num := Rat.num_nonneg.mpr h0
  have hden : (0 : ℚ) < ((Int.fract (Int.fract ii * (P : ℚ))).den : ℚ) := by
    exact_mod_cast (Int.fract (Int.fract ii * (P : ℚ))).den_pos
  have hlt : (Int.fract (Int.fract ii * (P : ℚ))).num
      < ((Int.fract (Int.fract ii * (P : ℚ))).den : ℤ) := by
    have h2 := h1
    rw [← Rat.num_div_den (Int.fract (Int.fract ii * (P : ℚ))), div_lt_one hden] at h2
    exact_mod_cast h2
  simp only [resample.InputIndex2Sample]
  omega

theorem weights_sum_pos (ii : ℚ) (P : ℕ) :
    0 < (resample.InputIndex2Sample ii P).1.weight
        + (resample.InputIndex2Sample ii P).2.weight := by
  rw [weights_sum]
  exact (Int.fract (Int.fract ii * (P : ℚ))).den_pos

theorem inputIndex2Sample_shift (ii : ℚ) (W P : ℕ) :
    resample.InputIndex2Sample (ii + (W : ℚ)) P
      = (⟨(resample.InputIndex2Sample ii P).1.inputIndex + W,
          (resample.InputIndex2Sample ii P).1.phaseIndex,
          (resample.InputIndex2Sample ii P).1.weight⟩,
         ⟨(resample.InputIndex2Sample ii P).2.inputIndex + W,
          (resample.InputIndex2Sample ii P).2.phaseIndex,
          (resample.InputIndex2Sample ii P).2.weight⟩) := by
  simp only [resample.InputIndex2Sample, Int.fract_add_nat, Int.floor_add_nat]
  split_ifs <;> simp [Prod.ext_iff, resample.PhaseSample.mk.injEq] <;> omega

theorem iis_fst_inputIndex (ii : ℚ) (P : ℕ) :
    (resample.InputIndex2Sample ii P).1.inputIndex = ⌊ii⌋ := rfl

theorem iis_snd_inputIndex_ge (ii : ℚ) (P : ℕ) :
    ⌊ii⌋ ≤ (resample.InputIndex2Sample ii P).2.inputIndex := by
  simp only [resample.InputIndex2Sample]
  split_ifs <;> omega

theorem dotZ_congr (x y : List ℚ) (a b : ℤ) (c : ℕ) (a' b' : ℤ) (c' : ℕ)
    (h1 : a = a') (h2 : b = b') (h3 : c = c') :
    dotZ x y a b c = dotZ x y a' b' c' := by
  rw [h1, h2, h3]

theorem dotZ_drop (x y : List ℚ) (W : ℕ) (a b : ℤ) (c : ℕ) (ha : 0 ≤ a) :
    dotZ (x.drop W) y a b c = dotZ x y (a + W) b c := by
  unfold dotZ
  apply Finset.sum_congr rfl
  intro j _
  rw [getZ_drop x W (by positivity)]
  have harg : (W : ℤ) + (a + j) = a + (W : ℤ) + j := by ring
  rw [harg]

theorem dotProductSample_shift (x filter : List ℚ) (W : ℕ) (idx : ℤ)
    (hleft : 0 ≤ idx - filter.length + 1) :
    resample.DotProductSample (x.drop W) filter idx
      = resample.DotProductSample x filter (idx + W) := by
  unfold resample.DotProductSample
  simp only [List.length_drop]
  rw [dotZ_drop x filter W _ _ _ (le_max_left _ _)]
  apply dotZ_congr <;> omega

theorem resampleSample_shift (x h : List ℚ) (P W : ℕ) (rates oi oi' : ℚ)
    (hii : inputIndexOf rates oi = inputIndexOf rates oi' + (W : ℚ))
    (hlo : (phaseSize h.length P : ℤ) - 1 ≤ ⌊inputIndexOf rates oi'⌋) :
    resampleSample x h P rates oi = resampleSample (x.drop W) h P rates oi' := by
  simp only [resampleSample]
  rw [hii, inputIndex2Sample_shift]
  dsimp only
  rw [← dotProductSample_shift x _ W _ (by
    rw [length_phaseList]
    have hle := phaseLen_le_phaseSize h.length P
      ((resample.InputIndex2Sample (inputIndexOf rates oi') P).1.phaseIndex)
    have hfst := iis_fst_inputIndex (inputIndexOf rates oi') P
    omega)]
  rw [← dotProductSample_shift x _ W _ (by
    rw [length_phaseList]
    have hle := phaseLen_le_phaseSize h.length P
      ((resample.InputIndex2Sample (inputIndexOf rates oi') P).2.phaseIndex)
    have hsnd := iis_snd_inputIndex_ge (inputIndexOf rates oi') P
    omega)]

theorem resampleOut_getD (x h : List ℚ) (P : ℕ) (sampleRates startPoint : ℚ)
    (len k : ℕ) (hk : k < len) :
    (ResampleOut x h P sampleRates startPoint len).getD k 0
      = resampleSample x h P sampleRates (startPoint + k) := by
  unfold ResampleOut
  rw [map_range_getD hk]

theorem changeSampleRate_den_num (r s : ℚ) :
    resample.ChangeSampleRate (r.den : ℤ) r.num s = s * r :=
  inputIndexOf_eq_mul r s

theorem phaseSize_pos (F P : ℕ) (hF : 1 ≤ F) (hP : 1 ≤ P) : 1 ≤ phaseSize F P := by
  rw [phaseSize, Nat.le_div_iff_mul_le (by omega)]
  omega

theorem floor_convOffset_ge (F P : ℕ) (hF : 1 ≤ F) (hP : 1 ≤ P) :
    (phaseSize F P : ℤ) - 1 ≤ ⌊((F : ℚ) - 1) / (P : ℚ)⌋ := by
  have hSP : phaseSize F P * P ≤ F + P - 1 := Nat.div_mul_le_self _ _
  have hb : ((phaseSize F P * P : ℕ) : ℤ) = (phaseSize F P : ℤ) * P := by
    push_cast
    ring
  have hz : (phaseSize F P : ℤ) * P ≤ (F : ℤ) + P - 1 := by
    have h' : ((phaseSize F P * P : ℕ) : ℤ) ≤ ((F + P - 1 : ℕ) : ℤ) := by
      exact_mod_cast hSP
    omega
  rw [Int.le_floor]
  have hPpos : (0 : ℚ) < (P : ℚ) := by
    exact_mod_cast Nat.lt_of_lt_of_le Nat.zero_lt_one hP
  rw [le_div_iff₀ hPpos]
  have hq : ((phaseSize F P : ℤ) : ℚ) * P ≤ ((F : ℤ) : ℚ) + P - 1 := by
    have hc := (@Int.cast_le ℚ _ _ _).mpr hz
    push_cast at hc ⊢
    linarith
  push_cast at hq ⊢
  linarith

/-- Claim C1 — streaming continuity of `Resample`: resampling in one call
versus two calls chained through the continuation token (second call's input
buffer starting at the token's `firstInputSample`, second call's start point
the token's `startPoint`) produces exactly the same output samples in the
overlap region. -/
theorem resample_streaming_continuity (x h : List ℚ) (P : ℕ) (hP : 1 ≤ P)
    (hF : 1 ≤ h.length) (rates : ℚ) (hrates : 0 < rates) (sp : ℚ)
    (n1 n2 k : ℕ) (hk : k < n2) :
    (ResampleOut
        (x.drop (resample.Continuation (sp + (n1 : ℚ)) h.length P rates).firstInputSample)
        h P rates
        (resample.Continuation (sp + (n1 : ℚ)) h.length P rates).startPoint n2).getD k 0
      = (ResampleOut x h P rates sp (n1 + n2)).getD (n1 + k) 0 := by
  have hne : rates ≠ 0 := ne_of_gt hrates
  rw [resampleOut_getD _ _ _ _ _ _ _ hk, resampleOut_getD _ _ _ _ _ _ _ (by omega)]
  simp only [resample.Continuation, changeSampleRate_den_num]
  split_ifs with hbr
  · dsimp only
    rw [List.drop_zero]
    have harg : sp + (n1 : ℚ) + (k : ℚ) = sp + ((n1 + k : ℕ) : ℚ) := by
      push_cast
      ring
    rw [harg]
  · dsimp only
    rw [changeSampleRate_num_den]
    set co : ℚ := ((h.length : ℚ) - 1) / (P : ℚ) with hco
    set fis : ℚ := (sp + (n1 : ℚ)) * rates - co with hfis
    have hfispos : 0 < fis := lt_of_not_le hbr
    have hfloor0 : 0 ≤ ⌊fis⌋ := Int.le_floor.mpr (by exact_mod_cast hfispos.le)
    have hWcast : ((⌊fis⌋.toNat : ℕ) : ℚ) = ((⌊fis⌋ : ℤ) : ℚ) := by
      exact_mod_cast congrArg (Int.cast : ℤ → ℚ) (Int.toNat_of_nonneg hfloor0)
    have hfl : (⌊fis⌋ : ℚ) = fis - Int.fract fis := by
      rw [Int.fract]
      ring
    have hoi2 : inputIndexOf rates ((Int.fract fis + co) / rates + (k : ℚ))
        = Int.fract fis + co + (k : ℚ) * rates := by
      rw [inputIndexOf_eq_mul, add_mul, div_mul_cancel₀ _ hne]
    have hii : inputIndexOf rates (sp + ((n1 + k : ℕ) : ℚ))
        = inputIndexOf rates ((Int.fract fis + co) / rates + (k : ℚ)) + ((⌊fis⌋.toNat : ℕ) : ℚ) := by
      rw [inputIndexOf_eq_mul, hoi2, hWcast, hfl, hfis]
      push_cast
      ring
    have hlo : (phaseSize h.length P : ℤ) - 1
        ≤ ⌊inputIndexOf rates ((Int.fract fis + co) / rates + (k : ℚ))⌋ := by
      rw [hoi2]
      have hmono : ⌊co⌋ ≤ ⌊Int.fract fis + co + (k : ℚ) * rates⌋ := by
        apply Int.floor_le_floor
        have h1 : 0 ≤ Int.fract fis := Int.fract_nonneg _
        have h2 : 0 ≤ (k : ℚ) * rates := by positivity
        linarith
      have hcoS := floor_convOffset_ge h.length P hF hP
      rw [← hco] at hcoS
      omega
    exact (resampleSample_shift x h P ⌊fis⌋.toNat rates
      (sp + ((n1 + k : ℕ) : ℚ)) ((Int.fract fis + co) / rates + (k : ℚ)) hii hlo).symm

/-- Claim C2 — `Interpolate` computes the requested window of the full
convolution of the zero-stuffed input (`Expand`ed, `P - 1` zeros after each
sample) with the original filter: for every output element `k` in range,
`hrOutput[k] = convolution(hrInput, hrFilter)[hrOffset + k]`, out-of-range
input samples contributing zero. -/
theorem interpolate_matches_zero_stuffed_convolution (x h : List ℚ) (P : ℕ) (hP : 1 ≤ P)
    (hrOffset hrLength k : ℕ) (hk : k < hrLength)
    (hbound : (hrOffset : ℤ) + (hrLength : ℤ)
      ≤ ConvolutionLength ((x.length : ℤ) * P) (h.length : ℤ)) :
    (Interpolate x h P hrOffset hrLength).getD k 0
      = convFullAt (Expand x P) h ((hrOffset + k : ℕ) : ℤ) := by
  unfold Interpolate
  rw [interpolateInto_getD]
  simp only [List.length_replicate]
  rw [if_pos hk, getD_replicate_zero, interpolateElem_eq_windowValue _ _ _ hP,
    windowValue_getD, conv_eq_phaseConv _ _ _ hP]

/-- Claim C9 — frame property of the in-place `Interpolate`: an output
element whose clipped convolution window is empty (`interpolateElem` is
`none`) is not written and retains its pre-call value; any other element in
the requested range is overwritten with the computed dot product. -/
theorem interpolate_frame (out x h : List ℚ) (P : ℕ) (hrOffset k : ℕ)
    (hk : k < out.length) :
    (InterpolateInto out x h P hrOffset).length = out.length ∧
      (interpolateElem x h P (hrOffset + k) = none →
        (InterpolateInto out x h P hrOffset).getD k 0 = out.getD k 0) ∧
      (∀ v, interpolateElem x h P (hrOffset + k) = some v →
        (InterpolateInto out x h P hrOffset).getD k 0 = v) := by
  refine ⟨length_interpolateInto _ _ _ _ _, ?_, ?_⟩
  · intro hnone
    rw [interpolateInto_getD, if_pos hk, hnone, Option.getD_none]
  · intro v hv
    rw [interpolateInto_getD, if_pos hk, hv, Option.getD_some]

theorem expand_getD_mul (x : List ℚ) (r : ℕ) (hr : 1 ≤ r) (i : ℕ) :
    (Expand x r).getD (i * r) 0 = x.getD i 0 := by
  have hh := expand_getD x r hr i 0 (by omega)
  simpa using hh

/-- Claim C6 — round trip: `Decimate (Expand x r) r = x` for every rate
`r ≥ 1` and every input `x`. -/
theorem decimate_expand_roundtrip (x : List ℚ) (r : ℕ) (hr : 1 ≤ r) :
    Decimate (Expand x r) r = x := by
  rw [decimate_eq_map, length_expand x r hr]
  have hceil : (x.length * r + r - 1) / r = x.length := by
    have h1 : x.length * r + r - 1 = (r - 1) + x.length * r := by omega
    rw [h1, Nat.add_mul_div_right _ _ (by omega : 0 < r), Nat.div_eq_of_lt (by omega)]
    omega
  rw [hceil]
  apply List.ext_getElem
  · simp
  · intro i h1 h2
    rw [List.getElem_map, List.getElem_range, ← List.getD_eq_getElem x 0 h2,
      expand_getD_mul x r hr i]

/-- Claim C7 — `Decimate` keeps every `rate`-th sample: with the asserted
output size `⌈n / r⌉`, `output[i] = input[i·r]` for every output index `i`
(and `i·r` is in range). -/
theorem decimate_spec (x : List ℚ) (r i : ℕ) (hx : 1 ≤ x.length) (hr : 1 ≤ r)
    (hi : i < (x.length + r - 1) / r) :
    (Decimate x r).length = (x.length + r - 1) / r ∧
      i * r < x.length ∧
      (Decimate x r).getD i 0 = x.getD (i * r) 0 := by
  have hlen : (Decimate x r).length = (x.length + r - 1) / r := by
    rw [decimate_eq_map]
    simp
  have hbound : i * r < x.length := by
    have h1 : i + 1 ≤ (x.length + r - 1) / r := hi
    rw [Nat.le_div_iff_mul_le (by omega)] at h1
    have h2 : (i + 1) * r = i * r + r := by rw [Nat.add_mul, Nat.one_mul]
    omega
  exact ⟨hlen, hbound, by rw [decimate_eq_map, map_range_getD hi]⟩

/-- Claim C3 counterexample — the claim states the input position is
`outputIndex / sampleRates`; at `outputIndex = 1`, `sampleRates = 2` the
code's mapping yields `2`, not `1/2`. -/
theorem resample_input_position_counterexample :
    inputIndexOf (2 : ℚ) 1 = 2 ∧ inputIndexOf (2 : ℚ) 1 ≠ 1 / 2 := by
  rw [inputIndexOf_eq_mul]
  norm_num

/-- Claim C3 (amended) — the exact input-domain position used by `Resample`
to select the anchor input sample and polyphase phase at output position
`outputIndex` is `outputIndex × sampleRates` (multiplication, not division:
the code treats `sampleRates` as the source/target ratio, consistently with
`ResamplingLength` and `ResamplingFilterCutoff`). -/
theorem resample_input_position (sampleRates outputIndex : ℚ) :
    inputIndexOf sampleRates outputIndex = outputIndex * sampleRates :=
  inputIndexOf_eq_mul sampleRates outputIndex

/-- Claim C4 counterexample — at the reachable exact input position `1/3`
(e.g. `sampleRates = 1/3`, `outputIndex = 1`) with `P = 2` phases, the two
blend weights are `1` and `2`: their sum is `3`, not `P = 2`. -/
theorem phase_blend_weights_counterexample :
    (resample.InputIndex2Sample (inputIndexOf (1 / 3 : ℚ) 1) 2).1.weight
      + (resample.InputIndex2Sample (inputIndexOf (1 / 3 : ℚ) 1) 2).2.weight ≠ 2 := by
  rw [weights_sum]
  have h1 : inputIndexOf (1 / 3 : ℚ) 1 = 1 / 3 := by
    rw [inputIndexOf_eq_mul]
    norm_num
  have hf0 : (⌊(1 / 3 : ℚ)⌋ : ℤ) = 0 := by
    rw [Int.floor_eq_iff] <;> norm_num
  have h2 : Int.fract (1 / 3 : ℚ) = 1 / 3 := by
    unfold Int.fract
    rw [hf0]
    norm_num
  have hf1 : (⌊(1 / 3 : ℚ) * 2⌋ : ℤ) = 0 := by
    rw [Int.floor_eq_iff] <;> norm_num
  have h3 : Int.fract ((1 / 3 : ℚ) * 2) = 2 / 3 := by
    unfold Int.fract
    rw [hf1]
    norm_num
  rw [h1, h2]
  push_cast
  rw [h3]
  intro hden
  have h5 := Rat.num_div_den ((2 : ℚ) / 3)
  rw [hden] at h5
  have h7 : (3 : ℚ) * (((2 : ℚ) / 3).num : ℚ) = 4 := by
    field_simp at h5
    linarith
  have h8 : (3 : ℤ) * ((2 : ℚ) / 3).num = 4 := by exact_mod_cast h7
  omega

/-- Claim C4 (amended) — the two polyphase candidates are adjacent,
`secondPhase = (firstPhase + 1) % P`, and the output sample is the weighted
average of the two candidate dot products normalized by
`firstWeight + secondWeight`; that sum equals the denominator of the reduced
scaled fractional position (not `P` in general — see the counterexample). -/
theorem phase_selection_blend (x h : List ℚ) (P : ℕ) (hP : 1 ≤ P)
    (sampleRates outputIndex : ℚ) :
    (resample.InputIndex2Sample (inputIndexOf sampleRates outputIndex) P).2.phaseIndex
        = ((resample.InputIndex2Sample (inputIndexOf sampleRates outputIndex) P).1.phaseIndex
            + 1) % P ∧
      (resample.InputIndex2Sample (inputIndexOf sampleRates outputIndex) P).1.weight
          + (resample.InputIndex2Sample (inputIndexOf sampleRates outputIndex) P).2.weight
        = (Int.fract (Int.fract (inputIndexOf sampleRates outputIndex) * (P : ℚ))).den ∧
      resampleSample x h P sampleRates outputIndex
        = (resample.DotProductSample x
              (phaseList h P
                (resample.InputIndex2Sample (inputIndexOf sampleRates outputIndex) P).1.phaseIndex)
              (resample.InputIndex2Sample (inputIndexOf sampleRates outputIndex) P).1.inputIndex
            * ((resample.InputIndex2Sample (inputIndexOf sampleRates outputIndex) P).1.weight : ℚ)
          + resample.DotProductSample x
              (phaseList h P
                (resample.InputIndex2Sample (inputIndexOf sampleRates outputIndex) P).2.phaseIndex)
              (resample.InputIndex2Sample (inputIndexOf sampleRates outputIndex) P).2.inputIndex
            * ((resample.InputIndex2Sample (inputIndexOf sampleRates outputIndex) P).2.weight : ℚ))
          / (((resample.InputIndex2Sample (inputIndexOf sampleRates outputIndex) P).1.weight : ℚ)
            + ((resample.InputIndex2Sample (inputIndexOf sampleRates outputIndex) P).2.weight : ℚ)) :=
  ⟨rfl, weights_sum _ _, rfl⟩

theorem phase_selection_blend_witness :
    1 ≤ 2 ∧
      ((resample.InputIndex2Sample (inputIndexOf (1 / 3 : ℚ) 1) 2).2.phaseIndex
          = ((resample.InputIndex2Sample (inputIndexOf (1 / 3 : ℚ) 1) 2).1.phaseIndex + 1) % 2 ∧
        (resample.InputIndex2Sample (inputIndexOf (1 / 3 : ℚ) 1) 2).1.weight
            + (resample.InputIndex2Sample (inputIndexOf (1 / 3 : ℚ) 1) 2).2.weight
          = (Int.fract (Int.fract (inputIndexOf (1 / 3 : ℚ) 1) * (2 : ℚ))).den ∧
        resampleSample [1] [1] 2 (1 / 3 : ℚ) 1
          = (resample.DotProductSample [1]
                (phaseList [1] 2
                  (resample.InputIndex2Sample (inputIndexOf (1 / 3 : ℚ) 1) 2).1.phaseIndex)
                (resample.InputIndex2Sample (inputIndexOf (1 / 3 : ℚ) 1) 2).1.inputIndex
              * ((resample.InputIndex2Sample (inputIndexOf (1 / 3 : ℚ) 1) 2).1.weight : ℚ)
            + resample.DotProductSample [1]
                (phaseList [1] 2
                  (resample.InputIndex2Sample (inputIndexOf (1 / 3 : ℚ) 1) 2).2.phaseIndex)
                (resample.InputIndex2Sample (inputIndexOf (1 / 3 : ℚ) 1) 2).2.inputIndex
              * ((resample.InputIndex2Sample (inputIndexOf (1 / 3 : ℚ) 1) 2).2.weight : ℚ))
            / (((resample.InputIndex2Sample (inputIndexOf (1 / 3 : ℚ) 1) 2).1.weight : ℚ)
              + ((resample.InputIndex2Sample (inputIndexOf (1 / 3 : ℚ) 1) 2).2.weight : ℚ))) :=
  ⟨by norm_num, phase_selection_blend [1] [1] 2 (by norm_num) (1 / 3) 1⟩

/-- Claim C10 — in every iteration of `Resample`'s output loop the blend
divisor `firstWeight + secondWeight` equals the denominator of the reduced
scaled fractional position, hence is at least `1`: the per-sample division
never divides by zero. -/
theorem resample_blend_divisor_pos (ii : ℚ) (P : ℕ) :
    (resample.InputIndex2Sample ii P).1.weight + (resample.InputIndex2Sample ii P).2.weight
        = (Int.fract (Int.fract ii * (P : ℚ))).den ∧
      0 < (resample.InputIndex2Sample ii P).1.weight
          + (resample.InputIndex2Sample ii P).2.weight ∧
      ((resample.InputIndex2Sample ii P).1.weight : ℚ)
          + ((resample.InputIndex2Sample ii P).2.weight : ℚ) ≠ 0 := by
  refine ⟨weights_sum ii P, weights_sum_pos ii P, fun hzero => ?_⟩
  have hpos := weights_sum_pos ii P
  have hcast : (((resample.InputIndex2Sample ii P).1.weight
      + (resample.InputIndex2Sample ii P).2.weight : ℕ) : ℚ) = 0 := by
    push_cast
    linarith
  have : (resample.InputIndex2Sample ii P).1.weight
      + (resample.InputIndex2Sample ii P).2.weight = 0 := by exact_mod_cast hcast
  omega

/-- Claim C5 — `Resample` fails its precondition checks before writing any
output element (modelled as returning `none`, no partial output) whenever
the configuration is invalid: zero phase count, non-positive rate, negative
start point, or requested length not strictly below the maximum resampled
length.  (`sampleRates = 0` passes the source's first assert,
`sampleRates >= 0`, but then fails the length assert, since the maximum
length degenerates.) -/
theorem resample_rejects_invalid (x h : List ℚ) (P : ℕ) (sampleRates startPoint : ℚ)
    (len : ℕ)
    (hinv : P = 0 ∨ sampleRates ≤ 0 ∨ startPoint < 0 ∨
      ¬ (startPoint + (len : ℚ)
          < resample.ResamplingLength x.length h.length P sampleRates)) :
    Resample x h P sampleRates startPoint len = none := by
  unfold Resample
  rw [if_neg]
  rintro ⟨h1, h2, h3, h4⟩
  rcases hinv with h5 | h5 | h5 | h5
  · omega
  · have h6 : sampleRates = 0 := le_antisymm h5 h1
    rw [h6] at h4
    unfold resample.ResamplingLength at h4
    rw [div_zero, zero_div] at h4
    have h7 : (0 : ℚ) ≤ (len : ℚ) := by positivity
    linarith
  · linarith
  · exact h5 h4

theorem resample_rejects_invalid_witness :
    Resample [1] [1] 0 1 0 0 = none :=
  resample_rejects_invalid [1] [1] 0 1 0 0 (Or.inl rfl)

theorem dps_single (x : List ℚ) (k : ℕ) (hkx : k < x.length) :
    resample.DotProductSample x [(1 : ℚ)] (k : ℤ) = x.getD k 0 := by
  unfold resample.DotProductSample
  simp only [List.length_cons, List.length_nil, Nat.zero_add, Nat.cast_one]
  have e2 : max 0 ((k : ℤ) - 1 + 1) = (k : ℤ) := by omega
  have e3 : min (x.length : ℤ) ((k : ℤ) + 1) = (k : ℤ) + 1 := by omega
  rw [e2, e3]
  have e4 : ((k : ℤ) + 1 - k).toNat = 1 := by omega
  have e5 : (k : ℤ) - ((k : ℤ) - 1 + 1) = 0 := by ring
  rw [e4, e5]
  unfold dotZ
  rw [Finset.sum_range_one]
  have e6 : (k : ℤ) + ((0 : ℕ) : ℤ) = ((k : ℕ) : ℤ) := by omega
  have e7 : (0 : ℤ) + ((0 : ℕ) : ℤ) = ((0 : ℕ) : ℤ) := by omega
  rw [e6, e7, getZ_natCast, getZ_natCast]
  norm_num

theorem iis_natCast (k : ℕ) :
    resample.InputIndex2Sample ((k : ℕ) : ℚ) 1
      = (⟨(k : ℤ), 0, 1⟩, ⟨(k : ℤ) + 1, 0, 0⟩) := by
  simp only [resample.InputIndex2Sample, Int.fract_natCast, Int.floor_natCast, zero_mul,
    Int.floor_zero, Int.fract_zero, Int.toNat_zero, Nat.zero_add, Nat.mod_self]
  norm_num

/-- Claim C8 — identity rate change: with `sampleRates = 1/1`,
`startPoint = 0` and a single-phase bank whose only tap is `1` (the filter
delay of this bank is zero), `Resample` reproduces the input: every produced
output sample `k` equals `input[k]`, for every output length permitted by
the length precondition. -/
theorem resample_identity (x : List ℚ) (len k : ℕ) (hk : k < len)
    (hlen : (0 : ℚ) + (len : ℚ) < resample.ResamplingLength x.length 1 1 1) :
    (ResampleOut x [1] 1 1 0 len).getD k 0 = x.getD k 0 := by
  have hrl : resample.ResamplingLength x.length 1 1 1 = (x.length : ℚ) := by
    unfold resample.ResamplingLength ConvolutionLength
    push_cast
    ring
  have hkx : k < x.length := by
    rw [hrl] at hlen
    have hlq : (len : ℚ) < (x.length : ℚ) := by linarith
    have hln : len < x.length := by exact_mod_cast hlq
    omega
  rw [resampleOut_getD _ _ _ _ _ _ _ hk]
  simp only [resampleSample]
  have hidx : inputIndexOf 1 ((0 : ℚ) + (k : ℚ)) = ((k : ℕ) : ℚ) := by
    rw [inputIndexOf_eq_mul]
    ring
  rw [hidx, iis_natCast]
  dsimp only
  have hph : phaseList [(1 : ℚ)] 1 0 = [1] := rfl
  rw [hph, dps_single x k hkx]
  push_cast
  ring

theorem resample_streaming_continuity_witness :
    (1 ≤ 1 ∧ 1 ≤ ([(1 : ℚ)]).length ∧ (0 : ℚ) < 2 ∧ 0 < 1) ∧
      (ResampleOut
          (([1, 2, 3, 4, 5, 6] : List ℚ).drop
            (resample.Continuation ((0 : ℚ) + ((1 : ℕ) : ℚ)) ([(1 : ℚ)]).length 1 2).firstInputSample)
          [1] 1 2
          (resample.Continuation ((0 : ℚ) + ((1 : ℕ) : ℚ)) ([(1 : ℚ)]).length 1 2).startPoint
          1).getD 0 0
        = (ResampleOut [1, 2, 3, 4, 5, 6] [1] 1 2 0 (1 + 1)).getD (1 + 0) 0 :=
  ⟨⟨le_rfl, by norm_num, by norm_num, Nat.zero_lt_one⟩,
    resample_streaming_continuity [1, 2, 3, 4, 5, 6] [1] 1 le_rfl (by norm_num) 2 (by norm_num)
      0 1 1 0 Nat.zero_lt_one⟩

theorem interpolate_matches_zero_stuffed_convolution_witness :
    (1 ≤ 2 ∧ 2 < 8 ∧
        ((0 : ℕ) : ℤ) + ((8 : ℕ) : ℤ)
          ≤ ConvolutionLength ((([1, 0, 1] : List ℚ).length : ℤ) * 2)
              (([1, 2, 3] : List ℚ).length : ℤ)) ∧
      (Interpolate [1, 0, 1] [1, 2, 3] 2 0 8).getD 2 0
        = convFullAt (Expand [1, 0, 1] 2) [1, 2, 3] ((0 + 2 : ℕ) : ℤ) :=
  ⟨⟨by norm_num, by norm_num, by norm_num [ConvolutionLength]⟩,
    interpolate_matches_zero_stuffed_convolution [1, 0, 1] [1, 2, 3] 2 (by norm_num) 0 8 2
      (by norm_num) (by norm_num [ConvolutionLength])⟩

theorem interpolate_frame_witness :
    0 < ([(5 : ℚ), 5]).length ∧
      ((InterpolateInto [5, 5] [1] [1] 1 0).length = ([(5 : ℚ), 5]).length ∧
        (interpolateElem [1] [1] 1 (0 + 0) = none →
          (InterpolateInto [5, 5] [1] [1] 1 0).getD 0 0 = ([(5 : ℚ), 5]).getD 0 0) ∧
        (∀ v, interpolateElem [1] [1] 1 (0 + 0) = some v →
          (InterpolateInto [5, 5] [1] [1] 1 0).getD 0 0 = v)) :=
  ⟨by norm_num, interpolate_frame [5, 5] [1] [1] 1 0 0 (by norm_num)⟩

theorem decimate_expand_roundtrip_witness :
    1 ≤ 2 ∧ Decimate (Expand [1, 2, 3] 2) 2 = [1, 2, 3] :=
  ⟨by norm_num, decimate_expand_roundtrip [1, 2, 3] 2 (by norm_num)⟩

theorem decimate_spec_witness :
    (1 ≤ ([(1 : ℚ), 2, 3, 4, 5]).length ∧ 1 ≤ 2 ∧
        1 < (([(1 : ℚ), 2, 3, 4, 5]).length + 2 - 1) / 2) ∧
      ((Decimate [1, 2, 3, 4, 5] 2).length = (([(1 : ℚ), 2, 3, 4, 5]).length + 2 - 1) / 2 ∧
        1 * 2 < ([(1 : ℚ), 2, 3, 4, 5]).length ∧
        (Decimate [1, 2, 3, 4, 5] 2).getD 1 0 = ([(1 : ℚ), 2, 3, 4, 5]).getD (1 * 2) 0) :=
  ⟨⟨by norm_num, by norm_num, by norm_num⟩,
    decimate_spec [1, 2, 3, 4, 5] 2 1 (by norm_num) (by norm_num) (by norm_num)⟩

theorem resample_identity_witness :
    (1 < 3 ∧ (0 : ℚ) + ((3 : ℕ) : ℚ)
        < resample.ResamplingLength ([(1 : ℚ), 2, 3, 4]).length 1 1 1) ∧
      (ResampleOut [1, 2, 3, 4] [1] 1 1 0 3).getD 1 0 = ([(1 : ℚ), 2, 3, 4]).getD 1 0 :=
  ⟨⟨by norm_num, by norm_num [resample.ResamplingLength, ConvolutionLength]⟩,
    resample_identity [1, 2, 3, 4] 3 1 (by norm_num)
      (by norm_num [resample.ResamplingLength, ConvolutionLength])⟩

end DSPBB
